import Mathlib

/-!
Verification of the caching reverse proxy `gleam` (src/gleam.go).

Shallow embedding conventions:
* Go byte slices and strings are `List Nat` with every element `< 256`.
* `http.Header` is the iteration sequence of the Go map: an association list
  `List (List Nat × List (List Nat))` whose keys are pairwise distinct; a Go
  map-assignment is `mapInsert` (replace in place, or append when absent).
* `time.Time` is `GoTime`: internal wall-clock seconds, nanoseconds, zone
  offset in seconds, and whether the location is the UTC sentinel; monotonic
  readings and named locations are not represented (the program only marshals,
  unmarshals, compares and adds durations to times).
* Fallible Go code returns `Except Unit`.
-/

/-- Little-endian 4-byte encoding written by `binary.Write(&buf, binary.LittleEndian, uint32(n))`;
the `uint32` conversion truncates modulo `2^32`, which the byte extraction performs implicitly. -/
def le32 (n : Nat) : List Nat :=
  [n % 256, n / 256 % 256, n / 65536 % 256, n / 16777216 % 256]

/-- Model of `binary.Read(buf, binary.LittleEndian, &x)` for a `uint32` target on a
`bytes.Reader`: `binary.Read` uses `io.ReadFull`, so fewer than four remaining bytes
is an error (`io.EOF` or `io.ErrUnexpectedEOF`); otherwise the four bytes are consumed. -/
def readU32 : List Nat → Except Unit (Nat × List Nat)
  | b0 :: b1 :: b2 :: b3 :: rest => .ok (b0 + b1 * 256 + b2 * 65536 + b3 * 16777216, rest)
  | _ => .error ()

/-- Model of `n := make([]byte, k); buf.Read(n)` on a `bytes.Reader`, as used by
`decodeCacheItem` (which checks only the returned error, never the count):
`bytes.Reader.Read` returns `io.EOF` exactly when no bytes remain (even for an
empty destination); otherwise it copies `min k (length rem)` bytes into the
zero-initialised destination and reports no error, so a short read yields a
zero-padded buffer. -/
def readBytes (k : Nat) (rem : List Nat) : Except Unit (List Nat × List Nat) :=
  if rem.isEmpty then .error ()
  else .ok (rem.take k ++ List.replicate (k - rem.length) 0, rem.drop k)

/-- Go map assignment `m[k] = v`: replace the value in place when the key is
present, append a fresh binding otherwise. -/
def mapInsert {α β : Type} [DecidableEq α] : List (α × β) → α → β → List (α × β)
  | [], k, v => [(k, v)]
  | (k', v') :: rest, k, v =>
      if k' = k then (k, v) :: rest else (k', v') :: mapInsert rest k v

/-- Go map lookup `m[k]`. -/
def mapLookup {α β : Type} [DecidableEq α] : List (α × β) → α → Option β
  | [], _ => none
  | (k', v') :: rest, k => if k' = k then some v' else mapLookup rest k

/-! ### Base64 (encoding/base64, StdEncoding)

`encodeCacheItem` wraps its payload with `base64.StdEncoding.EncodeToString`
and `decodeCacheItem` starts with `base64.StdEncoding.DecodeString`. The model
below follows the standard alphabet with `=` padding; the library's skipping of
embedded newline bytes is not modelled (no claim exercises it). -/

/-- Character of the standard base64 alphabet at index `n < 64`. -/
def b64char (n : Nat) : Nat :=
  if n < 26 then 65 + n
  else if n < 52 then 71 + n
  else if n < 62 then n - 4
  else if n = 62 then 43
  else 47

/-- Inverse of the standard base64 alphabet; `none` on characters outside it
(in particular on the padding character `=`, code 61). -/
def b64val (c : Nat) : Option Nat :=
  if 65 ≤ c ∧ c ≤ 90 then some (c - 65)
  else if 97 ≤ c ∧ c ≤ 122 then some (c - 71)
  else if 48 ≤ c ∧ c ≤ 57 then some (c + 4)
  else if c = 43 then some 62
  else if c = 47 then some 63
  else none

/-- Model of `base64.StdEncoding.EncodeToString`, producing the ASCII codes of
the base64 text: three input bytes per four characters, `=`-padded tail. -/
def encodeB64 : List Nat → List Nat
  | [] => []
  | [a] => [b64char (a / 4), b64char (a % 4 * 16), 61, 61]
  | [a, b] => [b64char (a / 4), b64char (a % 4 * 16 + b / 16), b64char (b % 16 * 4), 61]
  | a :: b :: c :: rest =>
      b64char (a / 4) :: b64char (a % 4 * 16 + b / 16) ::
      b64char (b % 16 * 4 + c / 64) :: b64char (c % 64) :: encodeB64 rest

/-- Model of `base64.StdEncoding.DecodeString`: four-character quanta, `=`
padding allowed only at the end of the final quantum, error on any character
outside the alphabet, on a quantum shorter than four characters, or on data
following a padded quantum. Unused trailing bits are not checked (StdEncoding
is not strict). -/
def decodeB64 : List Nat → Except Unit (List Nat)
  | [] => .ok []
  | c1 :: c2 :: c3 :: c4 :: rest =>
      match b64val c1, b64val c2 with
      | some v1, some v2 =>
          if c3 = 61 then
            if c4 = 61 ∧ rest = [] then .ok [v1 * 4 + v2 / 16] else .error ()
          else
            match b64val c3 with
            | some v3 =>
                if c4 = 61 then
                  if rest = [] then .ok [v1 * 4 + v2 / 16, v2 % 16 * 16 + v3 / 4]
                  else .error ()
                else
                  match b64val c4 with
                  | some v4 =>
                      match decodeB64 rest with
                      | .ok tail =>
                          .ok ((v1 * 4 + v2 / 16) :: (v2 % 16 * 16 + v3 / 4) ::
                               (v3 % 4 * 64 + v4) :: tail)
                      | .error e => .error e
                  | none => .error ()
            | none => .error ()
      | _, _ => .error ()
  | _ => .error ()

/-! ### Go `time.Time` and its binary marshalling -/

/-- Embedding of `time.Time` as far as this program observes it: absolute
wall-clock seconds (`t.sec()`, an `int64`), nanoseconds within the second
(`t.nsec()`, in `[0, 1e9)`), the zone offset in seconds, and whether the
location is the UTC sentinel. -/
structure GoTime where
  sec : Int
  nsec : Int
  offSeconds : Int
  isUTC : Bool
deriving DecidableEq, Repr

/-- Big-endian byte list of the low `n` bytes of the two's-complement image of `x`. -/
def beBytes (n : Nat) (x : Int) : List Nat :=
  let u := (x % ((2 : Int) ^ (8 * n))).toNat
  (List.range n).map (fun i => u / 256 ^ (n - 1 - i) % 256)

/-- Model of `time.Time.MarshalBinary`: version byte (1, or 2 when the zone
offset is not a whole number of minutes), eight big-endian bytes of the
seconds, four of the nanoseconds, two of the offset in minutes (`-1` for UTC),
and for version 2 one extra byte of the leftover offset seconds. Fails when the
offset in minutes falls outside `int16` or equals the UTC sentinel `-1`.
Division and remainder are Go's (truncated toward zero). -/
def marshalTime (t : GoTime) : Except Unit (List Nat) :=
  if t.isUTC then
    .ok (1 :: beBytes 8 t.sec ++ beBytes 4 t.nsec ++ beBytes 2 (-1))
  else
    let offMod := Int.tmod t.offSeconds 60
    let offDiv := Int.tdiv t.offSeconds 60
    if offDiv < -32768 ∨ offDiv = -1 ∨ offDiv > 32767 then .error ()
    else if offMod ≠ 0 then
      .ok (2 :: beBytes 8 t.sec ++ beBytes 4 t.nsec ++ beBytes 2 offDiv ++
           beBytes 1 offMod)
    else
      .ok (1 :: beBytes 8 t.sec ++ beBytes 4 t.nsec ++ beBytes 2 offDiv)

/-- Signed reading of an `n`-byte two's-complement value. -/
def fromTwos (n : Nat) (u : Nat) : Int :=
  if u < 2 ^ (8 * n - 1) then (u : Int) else (u : Int) - 2 ^ (8 * n)

/-- Model of `time.Time.UnmarshalBinary`: requires a nonempty buffer, a version
byte of 1 or 2, and the exact corresponding length (15 or 16); reconstructs
seconds, nanoseconds, and the offset; an offset of exactly `-60` seconds marks
the UTC sentinel location. -/
def unmarshalTime : List Nat → Except Unit GoTime
  | [] => .error ()
  | v :: rest =>
      if v = 1 ∨ v = 2 then
        if rest.length = (if v = 2 then 15 else 14) then
          match rest with
          | s0 :: s1 :: s2 :: s3 :: s4 :: s5 :: s6 :: s7 ::
            n0 :: n1 :: n2 :: n3 :: o0 :: o1 :: tail =>
              let sec := fromTwos 8 (s0 * 72057594037927936 + s1 * 281474976710656 +
                s2 * 1099511627776 + s3 * 4294967296 + s4 * 16777216 + s5 * 65536 +
                s6 * 256 + s7)
              let nsec := fromTwos 4 (n0 * 16777216 + n1 * 65536 + n2 * 256 + n3)
              let off := fromTwos 2 (o0 * 256 + o1) * 60 +
                (if v = 2 then fromTwos 1 (tail.headD 0) else 0)
              .ok ⟨sec, nsec, off, off = -60⟩
          | _ => .error ()
        else .error ()
      else .error ()

/-! ### The cache entry and its codec (encodeCacheItem / decodeCacheItem) -/

/-- Embedding of `CacheItem`: body bytes, the header map as its iteration
sequence, and the expiration instant. -/
structure CacheItem where
  content : List Nat
  header : List (List Nat × List (List Nat))
  expiration : GoTime
deriving DecidableEq, Repr

/-- Bytes emitted for the value list of one header key: per value, a `uint32`
length prefix followed by the value bytes. -/
def encodeValues (vs : List (List Nat)) : List Nat :=
  (vs.map (fun v => le32 v.length ++ v)).flatten

/-- Bytes emitted for the header section body: per header entry, key length,
key bytes, value count, then the encoded values. -/
def encodeHeaderList (hs : List (List Nat × List (List Nat))) : List Nat :=
  (hs.map (fun kv => le32 kv.1.length ++ kv.1 ++ le32 kv.2.length ++ encodeValues kv.2)).flatten

/-- Inner (pre-base64) payload of `encodeCacheItem` given the marshalled
expiration bytes: content length and content, header count and header section,
expiration length and expiration bytes. -/
def encodeInner (item : CacheItem) (tsb : List Nat) : List Nat :=
  le32 item.content.length ++ item.content ++
  le32 item.header.length ++ encodeHeaderList item.header ++
  le32 tsb.length ++ tsb

/-- Embedding of `encodeCacheItem`: assembles the length-prefixed sections in
order, marshals the expiration (the only fallible step — writes to a
`bytes.Buffer` never fail), and base64-encodes the result. -/
def encodeCacheItem (item : CacheItem) : Except Unit (List Nat) :=
  match marshalTime item.expiration with
  | .error e => .error e
  | .ok tsb => .ok (encodeB64 (encodeInner item tsb))

/-- Reading a length-prefixed blob, the sequence the decoder performs four
times (content, header key, header value, expiration bytes): a `uint32` length
via `binary.Read`, then `make` and the unchecked `buf.Read`. -/
def readBlob (rem : List Nat) : Except Unit (List Nat × List Nat) :=
  match readU32 rem with
  | .error e => .error e
  | .ok (n, r1) => readBytes n r1

/-- Decode loop for the values of one header key (`for j := uint32(0); j < valuesLen; j++`). -/
def decodeValuesLoop : Nat → List Nat → Except Unit (List (List Nat) × List Nat)
  | 0, rem => .ok ([], rem)
  | n + 1, rem =>
      match readBlob rem with
      | .error e => .error e
      | .ok (value, r2) =>
          match decodeValuesLoop n r2 with
          | .error e => .error e
          | .ok (vs, r3) => .ok (value :: vs, r3)

/-- Decode loop for the header entries (`for i := uint32(0); i < headerLen; i++`),
accumulating into the header map by Go map assignment. -/
def decodeHeaderLoop : Nat → List (List Nat × List (List Nat)) → List Nat →
    Except Unit (List (List Nat × List (List Nat)) × List Nat)
  | 0, acc, rem => .ok (acc, rem)
  | n + 1, acc, rem =>
      match readBlob rem with
      | .error e => .error e
      | .ok (key, r2) =>
          match readU32 r2 with
          | .error e => .error e
          | .ok (valuesLen, r3) =>
              match decodeValuesLoop valuesLen r3 with
              | .error e => .error e
              | .ok (values, r4) => decodeHeaderLoop n (mapInsert acc key values) r4

/-- Final stage of `decodeCacheItem`: expiration length, expiration bytes
(zero-padded on a short read, exactly as the unchecked `buf.Read` behaves), and
`UnmarshalBinary`. -/
def decodeTimeSection (rem : List Nat) : Except Unit GoTime :=
  match readBlob rem with
  | .error e => .error e
  | .ok (expBytes, _) => unmarshalTime expBytes

/-- Stages of `decodeCacheItem` after base64: content, header map, expiration. -/
def decodeBody (decoded : List Nat) : Except Unit CacheItem :=
  match readBlob decoded with
  | .error e => .error e
  | .ok (content, r2) =>
      match readU32 r2 with
      | .error e => .error e
      | .ok (headerLen, r3) =>
          match decodeHeaderLoop headerLen [] r3 with
          | .error e => .error e
          | .ok (header, r4) =>
              match decodeTimeSection r4 with
              | .error e => .error e
              | .ok t => .ok ⟨content, header, t⟩

/-- Embedding of `decodeCacheItem`: base64-decode, then parse the sections in
the order they were written. -/
def decodeCacheItem (data : List Nat) : Except Unit CacheItem :=
  match decodeB64 data with
  | .error e => .error e
  | .ok decoded => decodeBody decoded

/-- Byte-sequence validity: every element is an actual byte. -/
def validBytes (l : List Nat) : Prop := ∀ b ∈ l, b < 256

instance (l : List Nat) : Decidable (validBytes l) := List.decidableBAll _ l

/-- Validity of one header entry: byte-valued key and values, and every length
within `uint32` (so the length prefixes are not truncated). -/
def validHeaderEntry (kv : List Nat × List (List Nat)) : Prop :=
  validBytes kv.1 ∧ kv.1.length < 2 ^ 32 ∧ kv.2.length < 2 ^ 32 ∧
  ∀ v ∈ kv.2, validBytes v ∧ v.length < 2 ^ 32

instance (kv : List Nat × List (List Nat)) : Decidable (validHeaderEntry kv) := by
  unfold validHeaderEntry; infer_instance

/-- Validity of a cache entry: byte-valued content, lengths within `uint32`,
pairwise-distinct header keys (a Go map iterates each key once), and an
expiration whose seconds fit `int64` and whose nanoseconds are canonical. -/
def validEntry (e : CacheItem) : Prop :=
  validBytes e.content ∧ e.content.length < 2 ^ 32 ∧
  e.header.length < 2 ^ 32 ∧ (∀ kv ∈ e.header, validHeaderEntry kv) ∧
  (e.header.map Prod.fst).Nodup ∧
  -2 ^ 63 ≤ e.expiration.sec ∧ e.expiration.sec < 2 ^ 63 ∧
  0 ≤ e.expiration.nsec ∧ e.expiration.nsec < 1000000000

instance (e : CacheItem) : Decidable (validEntry e) := by
  unfold validEntry; infer_instance

/-! ### Time comparison and addition (time.Time.Before, time.Time.Add) -/

/-- Model of `t.Before(u)` on wall-clock readings: strictly earlier instant. -/
def timeBefore (t u : GoTime) : Bool :=
  t.sec < u.sec || (t.sec == u.sec && t.nsec < u.nsec)

/-- Model of `t.Add(d)` for a duration of `d` nanoseconds: split the duration
into whole seconds (Go's truncated division) and leftover nanoseconds, then
normalise the nanosecond field back into `[0, 1e9)`. The location is kept. -/
def timeAdd (t : GoTime) (d : Int) : GoTime :=
  let dsec := Int.tdiv d 1000000000
  let nsec := t.nsec + Int.tmod d 1000000000
  if nsec ≥ 1000000000 then ⟨t.sec + dsec + 1, nsec - 1000000000, t.offSeconds, t.isUTC⟩
  else if nsec < 0 then ⟨t.sec + dsec - 1, nsec + 1000000000, t.offSeconds, t.isUTC⟩
  else ⟨t.sec + dsec, nsec, t.offSeconds, t.isUTC⟩

/-! ### SimpleCache (the process-local store)

The mutex only serialises the critical sections; each operation is modelled as
a pure function of the store contents and of the `time.Now()` reading observed
inside it. -/

/-- Contents of `SimpleCache.store`, a Go map keyed by strings. -/
def SimpleStore : Type := List (String × CacheItem)

/-- Embedding of `SimpleCache.Set`: map assignment of a fresh item whose
expiration is `time.Now().Add(ttl)`. -/
def simpleCacheSet (store : SimpleStore) (key : String) (content : List Nat)
    (header : List (List Nat × List (List Nat))) (ttl : Int) (now : GoTime) : SimpleStore :=
  mapInsert store key ⟨content, header, timeAdd now ttl⟩

/-- Embedding of `SimpleCache.Get`, returning the Go result pair together with
the store as it stands after the call (the body only reads the map). -/
def simpleCacheGet (store : SimpleStore) (key : String) (now : GoTime) :
    (Option CacheItem × Bool) × SimpleStore :=
  match mapLookup store key with
  | none => ((none, false), store)
  | some item =>
      if timeBefore item.expiration now then ((none, false), store)
      else ((some item, true), store)

/-! ### The response sink and CacheResponseWriter -/

/-- Observable state of an `http.ResponseWriter`: its header map, the body
bytes it has received, and the trace of statuses passed to `WriteHeader`. -/
structure Sink where
  hdr : List (List Nat × List (List Nat))
  body : List Nat
  statuses : List Nat
deriving DecidableEq, Repr

/-- Model of `http.Header.Add` on the sink's header map: append the value to
the key's value slice, creating the binding when absent. (The canonicalisation
of header keys performed by net/http is not modelled; no claim depends on it.) -/
def headerAdd (m : List (List Nat × List (List Nat))) (k v : List Nat) :
    List (List Nat × List (List Nat)) :=
  match mapLookup m k with
  | none => m ++ [(k, [v])]
  | some vs => mapInsert m k (vs ++ [v])

/-- Sink receiving a body write. -/
def sinkWrite (w : Sink) (b : List Nat) : Sink :=
  { w with body := w.body ++ b }

/-- Sink receiving `WriteHeader(status)`. -/
def sinkWriteHeader (w : Sink) (s : Nat) : Sink :=
  { w with statuses := w.statuses ++ [s] }

/-- Embedding of `CacheResponseWriter`: the wrapped sink, the capture buffer
(`buf`, fresh and empty at construction), and the recorded status (Go zero
value 0 until `WriteHeader` is called). -/
structure CRW where
  w : Sink
  buf : List Nat
  status : Nat
deriving DecidableEq, Repr

/-- Embedding of `CacheResponseWriter.Write`: append to the capture buffer,
then forward the same bytes to the wrapped sink. -/
def crwWrite (c : CRW) (b : List Nat) : CRW :=
  { c with buf := c.buf ++ b, w := sinkWrite c.w b }

/-- Embedding of `CacheResponseWriter.WriteHeader`: record the status, then
forward it to the wrapped sink. -/
def crwWriteHeader (c : CRW) (s : Nat) : CRW :=
  { c with status := s, w := sinkWriteHeader c.w s }

/-- Embedding of `CacheResponseWriter.Header`: the wrapped sink's header map. -/
def crwHeader (c : CRW) : List (List Nat × List (List Nat)) := c.w.hdr

/-! ### The request dispatcher (the http.HandleFunc closure in main) -/

/-- One action the origin-forwarding collaborator performs on whatever
response sink it is handed: a body write, a `WriteHeader`, or a header add. -/
inductive SinkOp where
  | write (b : List Nat)
  | writeHeader (s : Nat)
  | addHeader (k v : List Nat)
deriving DecidableEq, Repr

/-- Effect of one collaborator action on a bare sink. -/
def applySinkOp (w : Sink) : SinkOp → Sink
  | .write b => sinkWrite w b
  | .writeHeader s => sinkWriteHeader w s
  | .addHeader k v => { w with hdr := headerAdd w.hdr k v }

/-- Effect of one collaborator action on a `CacheResponseWriter`: `Write` and
`WriteHeader` go through the decorator; header mutation goes to the map
returned by `Header()`, which is the wrapped sink's map. -/
def crwApplyOp (c : CRW) : SinkOp → CRW
  | .write b => crwWrite c b
  | .writeHeader s => crwWriteHeader c s
  | .addHeader k v => { c with w := { c.w with hdr := headerAdd c.w.hdr k v } }

/-- Embedding of an incoming request as the dispatcher observes it: the method
string and the full URL string `r.URL.String()`. -/
structure Request where
  method : String
  url : String
deriving DecidableEq, Repr

/-- Arguments of one `Cache.Set(key, content, header, ttl)` invocation. -/
structure SetCall where
  key : String
  content : List Nat
  header : List (List Nat × List (List Nat))
  ttl : Int
deriving DecidableEq, Repr

/-- Outcome of one dispatcher invocation: the final client sink, the key passed
to `Cache.Get` (if any), the arguments passed to `Cache.Set` (if any), and how
many times the origin-forwarding collaborator ran. -/
structure HandlerResult where
  client : Sink
  getCall : Option String
  setCall : Option SetCall
  proxyCalls : Nat
deriving DecidableEq, Repr

/-- Writing a stored entry's headers to the client: the dispatcher's nested
loops `for key, values := range cachedItem.header { for _, value := range values
{ w.Header().Add(key, value) } }`. -/
def writeStoredHeader (w : Sink) (hs : List (List Nat × List (List Nat))) : Sink :=
  hs.foldl (fun acc kv => kv.2.foldl (fun a v => { a with hdr := headerAdd a.hdr kv.1 v }) acc) w

/-- Embedding of the `http.HandleFunc` closure in `main`. The cache is
abstracted by the lookup function `get` (the `Cache` interface value); the
origin-forwarding collaborator is abstracted by the list of sink actions
`proxyOps` it performs on whatever sink it is handed. On GET: cache key is the
full URL; a hit writes the stored headers then the stored body and returns; a
miss wraps the sink in a fresh `CacheResponseWriter`, runs the collaborator,
then calls `Set` with the captured buffer, the underlying header map, and the
configured TTL (no status-code filtering). Any other method runs the
collaborator on the bare sink and touches no cache operation. -/
def handleRequest (get : String → Option CacheItem) (w : Sink) (r : Request)
    (proxyOps : List SinkOp) (ttl : Int) : HandlerResult :=
  if r.method = "GET" then
    let cacheKey := r.url
    match get cacheKey with
    | some cachedItem =>
        let w1 := writeStoredHeader w cachedItem.header
        { client := sinkWrite w1 cachedItem.content, getCall := some cacheKey,
          setCall := none, proxyCalls := 0 }
    | none =>
        let crw0 : CRW := ⟨w, [], 0⟩
        let crw1 := proxyOps.foldl crwApplyOp crw0
        { client := crw1.w, getCall := some cacheKey,
          setCall := some ⟨cacheKey, crw1.buf, crwHeader crw1, ttl⟩, proxyCalls := 1 }
  else
    { client := proxyOps.foldl applySinkOp w, getCall := none,
      setCall := none, proxyCalls := 1 }

/-! ### RedisCache (the remote store) -/

/-- Possible outcomes of the single backend read issued by `RedisCache.Get`:
the `redis.Nil` not-found reply, any other error, or the stored string. -/
inductive RedisReply where
  | nilReply : RedisReply
  | readErr : RedisReply
  | okReply (value : List Nat) : RedisReply
deriving DecidableEq, Repr

/-- Embedding of `RedisCache.Get`: `redis.Nil` and every other read error
collapse to `(nil, false)`; otherwise the stored value is decoded, and a decode
error also collapses to `(nil, false)`. -/
def redisCacheGet (reply : RedisReply) : Option CacheItem × Bool :=
  match reply with
  | .nilReply => (none, false)
  | .readErr => (none, false)
  | .okReply value =>
      match decodeCacheItem value with
      | .error _ => (none, false)
      | .ok item => (some item, true)

/-- The zero `time.Time`: zero seconds, zero nanoseconds, UTC location. This is
the expiration field of the `CacheItem` literal built by `RedisCache.Set`,
which sets only `content` and `header`. -/
def zeroGoTime : GoTime := ⟨0, 0, 0, true⟩

/-- Embedding of `RedisCache.Set`: serialise a `CacheItem` holding only content
and headers (expiration left at the zero time), ignore the encode error exactly
as the blank identifier does (`itemBytes` would then be nil), and issue the
single backend write `client.Set(ctx, key, itemBytes, ttl)`. The result is the
triple of arguments of that write. -/
def redisCacheSet (key : String) (content : List Nat)
    (header : List (List Nat × List (List Nat))) (ttl : Int) : String × List Nat × Int :=
  let itemBytes := match encodeCacheItem ⟨content, header, zeroGoTime⟩ with
    | .ok b => b
    | .error _ => []
  (key, itemBytes, ttl)

/-! ### Lemmas: base64 round trip -/

theorem b64val_b64char : ∀ n, n < 64 → b64val (b64char n) = some n := by decide

theorem b64char_ne_pad : ∀ n, n < 64 → b64char n ≠ 61 := by decide

theorem decodeB64_encodeB64 (xs : List Nat) (h : validBytes xs) :
    decodeB64 (encodeB64 xs) = .ok xs := by
  induction xs using encodeB64.induct with
  | case1 => simp [encodeB64, decodeB64]
  | case2 a =>
      have ha : a < 256 := h a (by simp)
      have h1 := b64val_b64char (a / 4) (by omega)
      have h2 := b64val_b64char (a % 4 * 16) (by omega)
      simp [encodeB64, decodeB64, h1, h2]
      omega
  | case3 a b =>
      have ha : a < 256 := h a (by simp)
      have hb : b < 256 := h b (by simp)
      have h1 := b64val_b64char (a / 4) (by omega)
      have h2 := b64val_b64char (a % 4 * 16 + b / 16) (by omega)
      have h3 := b64val_b64char (b % 16 * 4) (by omega)
      have h3' := b64char_ne_pad (b % 16 * 4) (by omega)
      simp [encodeB64, decodeB64, h1, h2, h3, h3']
      omega
  | case4 a b c rest ih =>
      have ha : a < 256 := h a (by simp)
      have hb : b < 256 := h b (by simp)
      have hc : c < 256 := h c (by simp)
      have hrest : validBytes rest := fun x hx => h x (by simp [hx])
      have h1 := b64val_b64char (a / 4) (by omega)
      have h2 := b64val_b64char (a % 4 * 16 + b / 16) (by omega)
      have h3 := b64val_b64char (b % 16 * 4 + c / 64) (by omega)
      have h4 := b64val_b64char (c % 64) (by omega)
      have h3' := b64char_ne_pad (b % 16 * 4 + c / 64) (by omega)
      have h4' := b64char_ne_pad (c % 64) (by omega)
      simp [encodeB64, decodeB64, h1, h2, h3, h4, h3', h4', ih hrest]
      omega

/-! ### Lemmas: the length-prefixed readers on well-formed input -/

theorem readU32_le32 (n : Nat) (rest : List Nat) (h : n < 2 ^ 32) :
    readU32 (le32 n ++ rest) = .ok (n, rest) := by
  simp only [le32, List.cons_append, List.nil_append, readU32]
  have : n % 256 + n / 256 % 256 * 256 + n / 65536 % 256 * 65536 + n / 16777216 % 256 * 16777216 = n := by
    omega
  rw [this]

theorem readU32_short (rem : List Nat) (h : rem.length < 4) :
    readU32 rem = .error () := by
  match rem with
  | [] => rfl
  | [_] => rfl
  | [_, _] => rfl
  | [_, _, _] => rfl
  | _ :: _ :: _ :: _ :: _ =>
      simp only [List.length_cons] at h
      exact (by omega : False).elim

theorem readBytes_exact (xs rest : List Nat) (h : xs ++ rest ≠ []) :
    readBytes xs.length (xs ++ rest) = .ok (xs, rest) := by
  have hne : (xs ++ rest).isEmpty = false := by
    simp [List.isEmpty_iff, h]
  simp [readBytes, hne, List.take_left, List.drop_left, List.length_append,
    Nat.sub_eq_zero_of_le (Nat.le_add_right _ _)]

theorem readBlob_exact (xs rest : List Nat) (hlen : xs.length < 2 ^ 32)
    (h : xs ++ rest ≠ []) :
    readBlob (le32 xs.length ++ (xs ++ rest)) = .ok (xs, rest) := by
  simp [readBlob, readU32_le32 _ _ hlen, readBytes_exact _ _ h]

theorem decodeValuesLoop_encode (vs : List (List Nat)) (rest : List Nat)
    (hlen : ∀ v ∈ vs, v.length < 2 ^ 32) (hr : rest ≠ []) :
    decodeValuesLoop vs.length (encodeValues vs ++ rest) = .ok (vs, rest) := by
  induction vs with
  | nil => simp [encodeValues, decodeValuesLoop]
  | cons v tl ih =>
      have hassoc : encodeValues (v :: tl) ++ rest =
          le32 v.length ++ (v ++ (encodeValues tl ++ rest)) := by
        simp [encodeValues]
      have hne : v ++ (encodeValues tl ++ rest) ≠ [] := by
        intro hcontra
        rcases List.append_eq_nil.1 hcontra with ⟨_, h2⟩
        exact hr (List.append_eq_nil.1 h2).2
      rw [List.length_cons, hassoc]
      simp only [decodeValuesLoop,
        readBlob_exact v (encodeValues tl ++ rest) (hlen v (by simp)) hne]
      rw [ih (fun x hx => hlen x (by simp [hx])) ]

theorem decodeHeaderLoop_encode (hs : List (List Nat × List (List Nat)))
    (acc : List (List Nat × List (List Nat))) (rest : List Nat)
    (hwf : ∀ kv ∈ hs, validHeaderEntry kv) (hr : rest ≠ []) :
    decodeHeaderLoop hs.length acc (encodeHeaderList hs ++ rest) =
      .ok (hs.foldl (fun a kv => mapInsert a kv.1 kv.2) acc, rest) := by
  induction hs generalizing acc with
  | nil => simp [encodeHeaderList, decodeHeaderLoop]
  | cons kv tl ih =>
      obtain ⟨hkb, hkl, hvc, hvs⟩ := hwf kv (by simp)
      have hassoc : encodeHeaderList (kv :: tl) ++ rest =
          le32 kv.1.length ++ (kv.1 ++ (le32 kv.2.length ++
            (encodeValues kv.2 ++ (encodeHeaderList tl ++ rest)))) := by
        simp [encodeHeaderList]
      have hne1 : kv.1 ++ (le32 kv.2.length ++
          (encodeValues kv.2 ++ (encodeHeaderList tl ++ rest))) ≠ [] := by
        simp [le32]
      have hne2 : encodeHeaderList tl ++ rest ≠ [] := by
        intro hcontra
        exact hr (List.append_eq_nil.1 hcontra).2
      rw [List.length_cons, hassoc]
      simp only [decodeHeaderLoop, readBlob_exact kv.1 _ hkl hne1,
        readU32_le32 kv.2.length _ hvc,
        decodeValuesLoop_encode kv.2 _ (fun v hv => (hvs v hv).2) hne2]
      rw [ih (mapInsert acc kv.1 kv.2) (fun x hx => hwf x (by simp [hx]))]
      simp

theorem mapInsert_eq_append {α β : Type} [DecidableEq α] (acc : List (α × β)) (k : α) (v : β)
    (h : ∀ p ∈ acc, p.1 ≠ k) : mapInsert acc k v = acc ++ [(k, v)] := by
  induction acc with
  | nil => rfl
  | cons p tl ih =>
      have hp : p.1 ≠ k := h p (by simp)
      simp only [mapInsert]
      rw [if_neg hp, ih (fun q hq => h q (by simp [hq]))]
      rfl

theorem foldl_mapInsert_eq_append {α β : Type} [DecidableEq α]
    (hs : List (α × β)) (acc : List (α × β))
    (hnd : (hs.map Prod.fst).Nodup)
    (hdisj : ∀ p ∈ acc, ∀ q ∈ hs, p.1 ≠ q.1) :
    hs.foldl (fun a kv => mapInsert a kv.1 kv.2) acc = acc ++ hs := by
  induction hs generalizing acc with
  | nil => simp
  | cons kv tl ih =>
      simp only [List.foldl_cons]
      rw [mapInsert_eq_append acc kv.1 kv.2 (fun p hp => hdisj p hp kv (by simp))]
      rw [ih (acc ++ [(kv.1, kv.2)]) (by simp [List.map_cons] at hnd; exact hnd.2)]
      · simp
      · intro p hp q hq
        rcases List.mem_append.1 hp with hp1 | hp2
        · exact hdisj p hp1 q (by simp [hq])
        · simp at hp2
          subst hp2
          simp only [List.map_cons, List.nodup_cons] at hnd
          intro hcontra
          exact hnd.1 (hcontra ▸ List.mem_map_of_mem Prod.fst hq)

/-! ### Lemmas: the timestamp codec -/

theorem beBytes_eight (x : Int) :
    beBytes 8 x = [(x % 18446744073709551616).toNat / 72057594037927936 % 256,
      (x % 18446744073709551616).toNat / 281474976710656 % 256,
      (x % 18446744073709551616).toNat / 1099511627776 % 256,
      (x % 18446744073709551616).toNat / 4294967296 % 256,
      (x % 18446744073709551616).toNat / 16777216 % 256,
      (x % 18446744073709551616).toNat / 65536 % 256,
      (x % 18446744073709551616).toNat / 256 % 256,
      (x % 18446744073709551616).toNat / 1 % 256] := rfl

theorem beBytes_four (x : Int) :
    beBytes 4 x = [(x % 4294967296).toNat / 16777216 % 256,
      (x % 4294967296).toNat / 65536 % 256,
      (x % 4294967296).toNat / 256 % 256,
      (x % 4294967296).toNat / 1 % 256] := rfl

theorem beBytes_two (x : Int) :
    beBytes 2 x = [(x % 65536).toNat / 256 % 256, (x % 65536).toNat / 1 % 256] := rfl

theorem beBytes_one (x : Int) :
    beBytes 1 x = [(x % 256).toNat / 1 % 256] := rfl

theorem fromTwos_byteSum_8 (x : Int) (h1 : -(2 : Int) ^ 63 ≤ x) (h2 : x < 2 ^ 63) :
    fromTwos 8 ((x % 18446744073709551616).toNat / 72057594037927936 % 256 * 72057594037927936 +
      (x % 18446744073709551616).toNat / 281474976710656 % 256 * 281474976710656 +
      (x % 18446744073709551616).toNat / 1099511627776 % 256 * 1099511627776 +
      (x % 18446744073709551616).toNat / 4294967296 % 256 * 4294967296 +
      (x % 18446744073709551616).toNat / 16777216 % 256 * 16777216 +
      (x % 18446744073709551616).toNat / 65536 % 256 * 65536 +
      (x % 18446744073709551616).toNat / 256 % 256 * 256 +
      (x % 18446744073709551616).toNat % 256) = x := by
  have h0 : 0 ≤ x % 18446744073709551616 := Int.emod_nonneg x (by norm_num)
  have hlt : x % 18446744073709551616 < 18446744073709551616 :=
    Int.emod_lt_of_pos x (by norm_num)
  have hcast : ((x % 18446744073709551616).toNat : Int) = x % 18446744073709551616 :=
    Int.toNat_of_nonneg h0
  have hwlt : (x % 18446744073709551616).toNat < 18446744073709551616 := by omega
  have hsum : (x % 18446744073709551616).toNat / 72057594037927936 % 256 * 72057594037927936 +
      (x % 18446744073709551616).toNat / 281474976710656 % 256 * 281474976710656 +
      (x % 18446744073709551616).toNat / 1099511627776 % 256 * 1099511627776 +
      (x % 18446744073709551616).toNat / 4294967296 % 256 * 4294967296 +
      (x % 18446744073709551616).toNat / 16777216 % 256 * 16777216 +
      (x % 18446744073709551616).toNat / 65536 % 256 * 65536 +
      (x % 18446744073709551616).toNat / 256 % 256 * 256 +
      (x % 18446744073709551616).toNat % 256 = (x % 18446744073709551616).toNat := by
    omega
  rw [hsum]
  unfold fromTwos
  norm_num
  split_ifs with hcond
  · omega
  · omega

theorem fromTwos_byteSum_4 (x : Int) (h1 : 0 ≤ x) (h2 : x < 1000000000) :
    fromTwos 4 ((x % 4294967296).toNat / 16777216 % 256 * 16777216 +
      (x % 4294967296).toNat / 65536 % 256 * 65536 +
      (x % 4294967296).toNat / 256 % 256 * 256 +
      (x % 4294967296).toNat % 256) = x := by
  have h0 : 0 ≤ x % 4294967296 := Int.emod_nonneg x (by norm_num)
  have hcast : ((x % 4294967296).toNat : Int) = x % 4294967296 :=
    Int.toNat_of_nonneg h0
  have hwlt : (x % 4294967296).toNat < 4294967296 := by omega
  have hsum : (x % 4294967296).toNat / 16777216 % 256 * 16777216 +
      (x % 4294967296).toNat / 65536 % 256 * 65536 +
      (x % 4294967296).toNat / 256 % 256 * 256 +
      (x % 4294967296).toNat % 256 = (x % 4294967296).toNat := by
    omega
  rw [hsum]
  unfold fromTwos
  norm_num
  split_ifs with hcond
  · omega
  · omega

theorem unmarshalTime_marshalTime (t : GoTime) (tsb : List Nat)
    (hm : marshalTime t = .ok tsb)
    (hs1 : -(2 : Int) ^ 63 ≤ t.sec) (hs2 : t.sec < 2 ^ 63)
    (hn1 : 0 ≤ t.nsec) (hn2 : t.nsec < 1000000000) :
    ∃ u, unmarshalTime tsb = .ok u ∧ u.sec = t.sec ∧ u.nsec = t.nsec := by
  unfold marshalTime at hm
  by_cases hutc : t.isUTC = true
  · rw [if_pos hutc] at hm
    simp only [Except.ok.injEq] at hm
    subst hm
    rw [beBytes_eight, beBytes_four, beBytes_two]
    simp only [List.cons_append, List.nil_append]
    simp only [unmarshalTime, List.length_cons, List.length_nil]
    norm_num
    exact ⟨fromTwos_byteSum_8 t.sec hs1 hs2, fromTwos_byteSum_4 t.nsec hn1 hn2⟩
  · rw [if_neg hutc] at hm
    dsimp only [] at hm
    by_cases hbad : Int.tdiv t.offSeconds 60 < -32768 ∨ Int.tdiv t.offSeconds 60 = -1 ∨
        Int.tdiv t.offSeconds 60 > 32767
    · rw [if_pos hbad] at hm
      exact absurd hm (by simp)
    · rw [if_neg hbad] at hm
      by_cases hmod : Int.tmod t.offSeconds 60 ≠ 0
      · rw [if_pos hmod] at hm
        simp only [Except.ok.injEq] at hm
        subst hm
        rw [beBytes_eight, beBytes_four, beBytes_two, beBytes_one]
        simp only [List.cons_append, List.nil_append]
        simp only [unmarshalTime, List.length_cons, List.length_nil]
        norm_num
        exact ⟨fromTwos_byteSum_8 t.sec hs1 hs2, fromTwos_byteSum_4 t.nsec hn1 hn2⟩
      · rw [if_neg hmod] at hm
        simp only [Except.ok.injEq] at hm
        subst hm
        rw [beBytes_eight, beBytes_four, beBytes_two]
        simp only [List.cons_append, List.nil_append]
        simp only [unmarshalTime, List.length_cons, List.length_nil]
        norm_num
        exact ⟨fromTwos_byteSum_8 t.sec hs1 hs2, fromTwos_byteSum_4 t.nsec hn1 hn2⟩

theorem marshalTime_shape (t : GoTime) (tsb : List Nat) (hm : marshalTime t = .ok tsb) :
    validBytes tsb ∧ (tsb.length = 15 ∨ tsb.length = 16) ∧ tsb ≠ [] := by
  unfold marshalTime at hm
  by_cases hutc : t.isUTC = true
  · rw [if_pos hutc] at hm
    simp only [Except.ok.injEq] at hm
    subst hm
    rw [beBytes_eight, beBytes_four, beBytes_two]
    refine ⟨?_, by simp, by simp⟩
    simp only [validBytes, List.cons_append, List.nil_append, List.mem_cons,
      List.not_mem_nil, or_false]
    intro b hb
    rcases hb with rfl | rfl | rfl | rfl | rfl | rfl | rfl | rfl | rfl | rfl | rfl |
      rfl | rfl | rfl | rfl <;> omega
  · rw [if_neg hutc] at hm
    dsimp only [] at hm
    by_cases hbad : Int.tdiv t.offSeconds 60 < -32768 ∨ Int.tdiv t.offSeconds 60 = -1 ∨
        Int.tdiv t.offSeconds 60 > 32767
    · rw [if_pos hbad] at hm
      exact absurd hm (by simp)
    · rw [if_neg hbad] at hm
      by_cases hmod : Int.tmod t.offSeconds 60 ≠ 0
      · rw [if_pos hmod] at hm
        simp only [Except.ok.injEq] at hm
        subst hm
        rw [beBytes_eight, beBytes_four, beBytes_two, beBytes_one]
        refine ⟨?_, by simp, by simp⟩
        simp only [validBytes, List.cons_append, List.nil_append, List.mem_cons,
          List.not_mem_nil, or_false]
        intro b hb
        rcases hb with rfl | rfl | rfl | rfl | rfl | rfl | rfl | rfl | rfl | rfl | rfl |
          rfl | rfl | rfl | rfl | rfl <;> omega
      · rw [if_neg hmod] at hm
        simp only [Except.ok.injEq] at hm
        subst hm
        rw [beBytes_eight, beBytes_four, beBytes_two]
        refine ⟨?_, by simp, by simp⟩
        simp only [validBytes, List.cons_append, List.nil_append, List.mem_cons,
          List.not_mem_nil, or_false]
        intro b hb
        rcases hb with rfl | rfl | rfl | rfl | rfl | rfl | rfl | rfl | rfl | rfl | rfl |
          rfl | rfl | rfl | rfl <;> omega

theorem validBytes_append (a b : List Nat) :
    validBytes (a ++ b) ↔ validBytes a ∧ validBytes b := by
  simp only [validBytes, List.mem_append]
  constructor
  · intro h
    exact ⟨fun x hx => h x (Or.inl hx), fun x hx => h x (Or.inr hx)⟩
  · intro h x hx
    rcases hx with hx | hx
    · exact h.1 x hx
    · exact h.2 x hx

theorem validBytes_le32 (n : Nat) : validBytes (le32 n) := by
  simp only [validBytes, le32, List.mem_cons, List.not_mem_nil, or_false]
  intro b hb
  rcases hb with rfl | rfl | rfl | rfl <;> omega

theorem validBytes_encodeValues (vs : List (List Nat)) (h : ∀ v ∈ vs, validBytes v) :
    validBytes (encodeValues vs) := by
  induction vs with
  | nil => simp [encodeValues, validBytes]
  | cons v tl ih =>
      have : encodeValues (v :: tl) = le32 v.length ++ v ++ encodeValues tl := by
        simp [encodeValues]
      rw [this, validBytes_append, validBytes_append]
      exact ⟨⟨validBytes_le32 _, h v (by simp)⟩, ih (fun x hx => h x (by simp [hx]))⟩

theorem validBytes_encodeHeaderList (hs : List (List Nat × List (List Nat)))
    (h : ∀ kv ∈ hs, validHeaderEntry kv) : validBytes (encodeHeaderList hs) := by
  induction hs with
  | nil => simp [encodeHeaderList, validBytes]
  | cons kv tl ih =>
      obtain ⟨hkb, _, _, hvs⟩ := h kv (by simp)
      have : encodeHeaderList (kv :: tl) =
          le32 kv.1.length ++ kv.1 ++ le32 kv.2.length ++ encodeValues kv.2 ++
            encodeHeaderList tl := by
        simp [encodeHeaderList]
      rw [this, validBytes_append, validBytes_append, validBytes_append, validBytes_append]
      exact ⟨⟨⟨⟨validBytes_le32 _, hkb⟩, validBytes_le32 _⟩,
        validBytes_encodeValues _ (fun v hv => (hvs v hv).1)⟩,
        ih (fun x hx => h x (by simp [hx]))⟩

theorem validBytes_encodeInner (e : CacheItem) (tsb : List Nat)
    (hv : validEntry e) (hts : validBytes tsb) : validBytes (encodeInner e tsb) := by
  obtain ⟨hcb, _, _, hhwf, _⟩ := hv
  unfold encodeInner
  rw [validBytes_append, validBytes_append, validBytes_append, validBytes_append,
    validBytes_append]
  exact ⟨⟨⟨⟨⟨validBytes_le32 _, hcb⟩, validBytes_le32 _⟩,
    validBytes_encodeHeaderList _ hhwf⟩, validBytes_le32 _⟩, hts⟩

theorem readBlob_exact_nil (xs : List Nat) (hlen : xs.length < 2 ^ 32) (hne : xs ≠ []) :
    readBlob (le32 xs.length ++ xs) = .ok (xs, []) := by
  have h := readBlob_exact xs [] hlen (by simp [hne])
  simpa using h

theorem decodeBody_encodeInner (e : CacheItem) (tsb : List Nat) (hv : validEntry e)
    (hm : marshalTime e.expiration = .ok tsb) :
    ∃ u, decodeBody (encodeInner e tsb) = .ok ⟨e.content, e.header, u⟩ ∧
      u.sec = e.expiration.sec ∧ u.nsec = e.expiration.nsec := by
  obtain ⟨hcb, hcl, hhl, hhwf, hnd, hs1, hs2, hn1, hn2⟩ := hv
  obtain ⟨htsv, htslen, htsne⟩ := marshalTime_shape _ _ hm
  obtain ⟨u, hu, husec, hunsec⟩ := unmarshalTime_marshalTime _ _ hm hs1 hs2 hn1 hn2
  have htl : tsb.length < 2 ^ 32 := by rcases htslen with h | h <;> omega
  have hassoc : encodeInner e tsb =
      le32 e.content.length ++ (e.content ++ (le32 e.header.length ++
        (encodeHeaderList e.header ++ (le32 tsb.length ++ tsb)))) := by
    simp [encodeInner]
  have hne1 : e.content ++ (le32 e.header.length ++ (encodeHeaderList e.header ++
      (le32 tsb.length ++ tsb))) ≠ [] := by simp [le32]
  have hne2 : le32 tsb.length ++ tsb ≠ [] := by simp [le32]
  have hfold : e.header.foldl (fun a kv => mapInsert a kv.1 kv.2) [] = e.header := by
    have h := foldl_mapInsert_eq_append e.header [] hnd (by simp)
    simpa using h
  refine ⟨u, ?_, husec, hunsec⟩
  rw [hassoc]
  simp only [decodeBody, readBlob_exact e.content _ hcl hne1,
    readU32_le32 e.header.length _ hhl,
    decodeHeaderLoop_encode e.header [] _ hhwf hne2, hfold,
    decodeTimeSection, readBlob_exact_nil tsb htl htsne, hu]

/-! ### Claim C1 -/

/-- C1: for every valid cache entry (any body bytes including zero-length, any
header mapping with zero or more keys and zero or more values per key, any
representable expiration instant), `decodeCacheItem (encodeCacheItem e)`
succeeds and reproduces `e` exactly: equal body bytes, equal header mapping
(same association list for the iteration order used during encode — hence the
same key set and per-key value sequences for every iteration order, witnessed
by the pointwise lookup equality), and the expiration instant equal to
sub-second (nanosecond) precision. -/
theorem claim_C1_codec_roundtrip (e : CacheItem) (enc : List Nat)
    (hv : validEntry e) (henc : encodeCacheItem e = .ok enc) :
    ∃ d, decodeCacheItem enc = .ok d ∧ d.content = e.content ∧ d.header = e.header ∧
      (∀ k, mapLookup d.header k = mapLookup e.header k) ∧
      d.expiration.sec = e.expiration.sec ∧ d.expiration.nsec = e.expiration.nsec := by
  unfold encodeCacheItem at henc
  cases hm : marshalTime e.expiration with
  | error err => rw [hm] at henc; exact absurd henc (by simp)
  | ok tsb =>
      rw [hm] at henc
      simp only [Except.ok.injEq] at henc
      subst henc
      obtain ⟨htsv, _, _⟩ := marshalTime_shape _ _ hm
      obtain ⟨u, hdec, hsec, hnsec⟩ := decodeBody_encodeInner e tsb hv hm
      refine ⟨⟨e.content, e.header, u⟩, ?_, rfl, rfl, fun k => rfl, hsec, hnsec⟩
      unfold decodeCacheItem
      rw [decodeB64_encodeB64 _ (validBytes_encodeInner e tsb hv htsv)]
      exact hdec

/-- Witness for C1 at a concrete entry with a two-byte body, one header key
with one value, and a UTC expiration. -/
theorem claim_C1_codec_roundtrip_witness :
    validEntry ⟨[104, 105], [([88], [[49]])], ⟨5, 6, 0, true⟩⟩ ∧
    ∃ d, decodeCacheItem
        ((encodeCacheItem ⟨[104, 105], [([88], [[49]])], ⟨5, 6, 0, true⟩⟩).toOption.getD []) =
          .ok d ∧
      d.content = [104, 105] ∧ d.header = [([88], [[49]])] ∧
      (∀ k, mapLookup d.header k = mapLookup ([([88], [[49]])] :
        List (List Nat × List (List Nat))) k) ∧
      d.expiration.sec = 5 ∧ d.expiration.nsec = 6 :=
  ⟨by decide, claim_C1_codec_roundtrip ⟨[104, 105], [([88], [[49]])], ⟨5, 6, 0, true⟩⟩ _
    (by decide) (by rfl)⟩

/-! ### Lemmas: the map model -/

theorem mapLookup_mapInsert_self {α β : Type} [DecidableEq α]
    (m : List (α × β)) (k : α) (v : β) : mapLookup (mapInsert m k v) k = some v := by
  induction m with
  | nil => simp [mapInsert, mapLookup]
  | cons p tl ih =>
      by_cases h : p.1 = k
      · simp [mapInsert, mapLookup, h]
      · simp only [mapInsert]
        rw [if_neg h]
        simp only [mapLookup]
        rw [if_neg h]
        exact ih

/-! ### Claim C4 -/

/-- Counterexample for C4: with a stored entry whose expiration instant equals
the current time exactly (so it is "at" the current time), `SimpleCache.Get`
returns the entry with `found = true` — the code misses only when the
expiration is strictly `Before` the current time, not "at or before" it. -/
theorem claim_C4_counterexample :
    timeBefore (⟨10, 0, 0, true⟩ : GoTime) ⟨10, 0, 0, true⟩ = false ∧
    (simpleCacheGet [("k", ⟨[1], [], ⟨10, 0, 0, true⟩⟩)] "k" ⟨10, 0, 0, true⟩).1 =
      (some ⟨[1], [], ⟨10, 0, 0, true⟩⟩, true) := by
  constructor
  · rfl
  · rfl

/-- C4 (amended): `SimpleCache.Get(k)` returns `(nil, false)` exactly when `k`
is absent from the store or the stored entry's expiration instant is strictly
before the current time; otherwise (present and not strictly expired, including
an expiration exactly at the current time) it returns the stored entry with
`found = true`. In particular a key never stored always yields `found = false`. -/
theorem claim_C4_get_miss_iff (store : SimpleStore) (key : String) (now : GoTime) :
    ((simpleCacheGet store key now).1 = (none, false) ↔
      mapLookup store key = none ∨
        ∃ it, mapLookup store key = some it ∧ timeBefore it.expiration now = true) ∧
    (∀ it, mapLookup store key = some it → timeBefore it.expiration now = false →
      (simpleCacheGet store key now).1 = (some it, true)) ∧
    (mapLookup store key = none → (simpleCacheGet store key now).1 = (none, false)) := by
  refine ⟨?_, ?_, ?_⟩
  · cases h : mapLookup store key with
    | none => simp [simpleCacheGet, h]
    | some it =>
        by_cases hexp : timeBefore it.expiration now = true
        · simp [simpleCacheGet, h, hexp]
        · simp only [simpleCacheGet, h, hexp, if_neg]
          rw [if_neg (by simp [hexp])]
          simp [hexp]
  · intro it h hexp
    simp [simpleCacheGet, h, hexp]
  · intro h
    simp [simpleCacheGet, h]

/-- Witness for C4 (amended): a key that was never stored reports not found. -/
theorem claim_C4_get_miss_iff_witness :
    (simpleCacheGet ([] : SimpleStore) "never-set" ⟨0, 0, 0, true⟩).1 = (none, false) :=
  (claim_C4_get_miss_iff [] "never-set" ⟨0, 0, 0, true⟩).2.2 (by rfl)

/-! ### Claim C9 -/

/-- C9: `SimpleCache.Get` never modifies the store: the mapping after `Get`
equals the mapping before it for every key and store state, and in particular
an entry found expired (reported not found) is still present afterwards —
expired entries are not deleted. -/
theorem claim_C9_get_frame (store : SimpleStore) (key : String) (now : GoTime) :
    (simpleCacheGet store key now).2 = store ∧
    (∀ it, mapLookup store key = some it →
      mapLookup (simpleCacheGet store key now).2 key = some it) := by
  have hframe : (simpleCacheGet store key now).2 = store := by
    unfold simpleCacheGet
    cases mapLookup store key with
    | none => rfl
    | some it =>
        by_cases h : timeBefore it.expiration now = true
        · simp [h]
        · simp [h]
  exact ⟨hframe, fun it hit => by rw [hframe]; exact hit⟩

/-- Witness for C9 at an expired entry: `Get` reports a miss yet the entry is
still in the store afterwards. -/
theorem claim_C9_get_frame_witness :
    mapLookup (simpleCacheGet [("k", ⟨[7], [], ⟨0, 0, 0, true⟩⟩)] "k" ⟨5, 0, 0, true⟩).2 "k" =
      some ⟨[7], [], ⟨0, 0, 0, true⟩⟩ :=
  (claim_C9_get_frame [("k", ⟨[7], [], ⟨0, 0, 0, true⟩⟩)] "k" ⟨5, 0, 0, true⟩).2
    ⟨[7], [], ⟨0, 0, 0, true⟩⟩ (by rfl)

/-! ### Claim C7 -/

/-- C7: two successive `Set` calls on the same key leave exactly the second
write's entry in the store — `Set` replaces any prior mapping unconditionally
and stamps `expiration = now + ttl` — and a `Get` at any instant at which that
entry is not yet strictly expired returns the second body `b2`, never `b1`. -/
theorem claim_C7_set_overwrite (store : SimpleStore) (k : String)
    (c1 c2 : List Nat) (h1 h2 : List (List Nat × List (List Nat)))
    (ttl1 ttl2 : Int) (n1 n2 n3 : GoTime)
    (hfresh : timeBefore (timeAdd n2 ttl2) n3 = false) :
    mapLookup (simpleCacheSet (simpleCacheSet store k c1 h1 ttl1 n1) k c2 h2 ttl2 n2) k =
      some ⟨c2, h2, timeAdd n2 ttl2⟩ ∧
    (simpleCacheGet (simpleCacheSet (simpleCacheSet store k c1 h1 ttl1 n1) k c2 h2 ttl2 n2)
        k n3).1 = (some ⟨c2, h2, timeAdd n2 ttl2⟩, true) := by
  have hlook : mapLookup (simpleCacheSet (simpleCacheSet store k c1 h1 ttl1 n1) k c2 h2 ttl2 n2) k =
      some ⟨c2, h2, timeAdd n2 ttl2⟩ := by
    unfold simpleCacheSet
    exact mapLookup_mapInsert_self _ _ _
  refine ⟨hlook, ?_⟩
  simp [simpleCacheGet, hlook, hfresh]

/-- Witness for C7: overwrite `[1]` with `[2]`, then read before the second
TTL has elapsed. -/
theorem claim_C7_set_overwrite_witness :
    timeBefore (timeAdd ⟨0, 0, 0, true⟩ 1000000000) ⟨0, 500, 0, true⟩ = false ∧
    (simpleCacheGet (simpleCacheSet (simpleCacheSet [] "k" [1] [] 1000000000 ⟨0, 0, 0, true⟩)
        "k" [2] [] 1000000000 ⟨0, 0, 0, true⟩) "k" ⟨0, 500, 0, true⟩).1 =
      (some ⟨[2], [], timeAdd ⟨0, 0, 0, true⟩ 1000000000⟩, true) :=
  ⟨by decide, (claim_C7_set_overwrite [] "k" [1] [2] [] [] 1000000000 1000000000
    ⟨0, 0, 0, true⟩ ⟨0, 0, 0, true⟩ ⟨0, 500, 0, true⟩ (by decide)).2⟩

/-! ### Claim C5 -/

theorem foldl_crwWrite_spec (bs : List (List Nat)) (c : CRW) :
    (bs.foldl crwWrite c).buf = c.buf ++ bs.flatten ∧
    (bs.foldl crwWrite c).w.body = c.w.body ++ bs.flatten := by
  induction bs generalizing c with
  | nil => simp
  | cons b tl ih =>
      simp only [List.foldl_cons, List.flatten_cons]
      obtain ⟨hb, hw⟩ := ih (crwWrite c b)
      rw [hb, hw]
      simp [crwWrite, sinkWrite, List.append_assoc]

/-- C5: every `Write` through the `CacheResponseWriter` forwards exactly its
bytes unchanged to the underlying sink and appends them to the capture buffer,
so after any sequence of writes `b1..bn` the buffer equals `b1 ++ ... ++ bn`
and the underlying sink received exactly those same bytes; `WriteHeader`
forwards the status to the underlying sink and records it in the decorator's
status field. -/
theorem claim_C5_capture_fidelity (c : CRW) (bs : List (List Nat)) (s : Nat) :
    (∀ b, (crwWrite c b).w.body = c.w.body ++ b ∧ (crwWrite c b).buf = c.buf ++ b) ∧
    ((bs.foldl crwWrite c).buf = c.buf ++ bs.flatten ∧
      (bs.foldl crwWrite c).w.body = c.w.body ++ bs.flatten) ∧
    ((crwWriteHeader c s).w.statuses = c.w.statuses ++ [s] ∧
      (crwWriteHeader c s).status = s) := by
  refine ⟨fun b => ⟨rfl, rfl⟩, foldl_crwWrite_spec bs c, rfl, rfl⟩

/-! ### Claims C3 and C8 -/

/-- C3: on a GET request the dispatcher uses the full URL string as the cache
key; on a hit it writes the stored entry's headers and then its stored body to
the client, performs no `Set`, and never runs the origin-forwarding
collaborator; on a miss it runs the collaborator once through the capture
decorator (over an arbitrary sequence of collaborator actions, hence for every
response status) and then calls `Set` with the key, the captured buffer, the
underlying header map, and the configured TTL. -/
theorem claim_C3_dispatcher_get (get : String → Option CacheItem) (w : Sink)
    (r : Request) (ops : List SinkOp) (ttl : Int) (hm : r.method = "GET") :
    (∀ item, get r.url = some item →
      handleRequest get w r ops ttl =
        { client := sinkWrite (writeStoredHeader w item.header) item.content,
          getCall := some r.url, setCall := none, proxyCalls := 0 }) ∧
    (get r.url = none →
      handleRequest get w r ops ttl =
        { client := (ops.foldl crwApplyOp ⟨w, [], 0⟩).w,
          getCall := some r.url,
          setCall := some ⟨r.url, (ops.foldl crwApplyOp ⟨w, [], 0⟩).buf,
            (ops.foldl crwApplyOp ⟨w, [], 0⟩).w.hdr, ttl⟩,
          proxyCalls := 1 }) := by
  constructor
  · intro item hit
    unfold handleRequest
    rw [if_pos hm]
    dsimp only []
    rw [hit]
  · intro miss
    unfold handleRequest
    rw [if_pos hm]
    dsimp only []
    rw [miss]
    rfl

/-- Witness for C3: a concrete GET with an empty cache runs the collaborator
and then stores the captured response under the URL key. -/
theorem claim_C3_dispatcher_get_witness :
    handleRequest (fun _ => none) ⟨[], [], []⟩ ⟨"GET", "/foo"⟩
        [.addHeader [88] [49], .writeHeader 200, .write [97, 98]] 60 =
      { client := ⟨[([88], [[49]])], [97, 98], [200]⟩,
        getCall := some "/foo",
        setCall := some ⟨"/foo", [97, 98], [([88], [[49]])], 60⟩,
        proxyCalls := 1 } := by
  have h := (claim_C3_dispatcher_get (fun _ => none) ⟨[], [], []⟩ ⟨"GET", "/foo"⟩
    [.addHeader [88] [49], .writeHeader 200, .write [97, 98]] 60 (by rfl)).2 (by rfl)
  rw [h]
  rfl

/-- C8: on any non-GET request the dispatcher hands the bare client sink to
the origin-forwarding collaborator and performs no cache operation at all:
no `Get`, no `Set`, cache state untouched. -/
theorem claim_C8_non_get_bypasses_cache (get : String → Option CacheItem) (w : Sink)
    (r : Request) (ops : List SinkOp) (ttl : Int) (hm : r.method ≠ "GET") :
    handleRequest get w r ops ttl =
      { client := ops.foldl applySinkOp w, getCall := none,
        setCall := none, proxyCalls := 1 } := by
  unfold handleRequest
  rw [if_neg hm]

/-- Witness for C8 on a concrete POST request. -/
theorem claim_C8_non_get_bypasses_cache_witness :
    handleRequest (fun _ => some ⟨[9], [], ⟨0, 0, 0, true⟩⟩) ⟨[], [], []⟩ ⟨"POST", "/foo"⟩
        [.write [97]] 60 =
      { client := ⟨[], [97], []⟩, getCall := none, setCall := none, proxyCalls := 1 } := by
  have h := claim_C8_non_get_bypasses_cache (fun _ => some ⟨[9], [], ⟨0, 0, 0, true⟩⟩)
    ⟨[], [], []⟩ ⟨"POST", "/foo"⟩ [.write [97]] 60 (by decide)
  rw [h]
  rfl

/-! ### Claim C6 -/

/-- C6: `RedisCache.Get` never surfaces an error: the `redis.Nil` not-found
reply, any other backend read error, and a decode failure of the stored value
all produce exactly `(nil, false)`, and the only way it reports `found` is a
readable value that decodes successfully. -/
theorem claim_C6_redis_get_collapses_errors :
    redisCacheGet .nilReply = (none, false) ∧
    redisCacheGet .readErr = (none, false) ∧
    (∀ v, decodeCacheItem v = .error () → redisCacheGet (.okReply v) = (none, false)) ∧
    (∀ reply, redisCacheGet reply = (none, false) ∨
      ∃ v item, reply = .okReply v ∧ decodeCacheItem v = .ok item ∧
        redisCacheGet reply = (some item, true)) := by
  refine ⟨rfl, rfl, ?_, ?_⟩
  · intro v hv
    simp [redisCacheGet, hv]
  · intro reply
    cases reply with
    | nilReply => exact Or.inl rfl
    | readErr => exact Or.inl rfl
    | okReply v =>
        cases hd : decodeCacheItem v with
        | error e =>
            left
            cases e
            simp [redisCacheGet, hd]
        | ok item =>
            right
            exact ⟨v, item, rfl, hd, by simp [redisCacheGet, hd]⟩

/-- Witness for C6 at a value that is not valid base64 (length 1). -/
theorem claim_C6_redis_get_collapses_errors_witness :
    redisCacheGet (.okReply [65]) = (none, false) :=
  claim_C6_redis_get_collapses_errors.2.2.1 [65] (by rfl)

/-! ### Claim C10 -/

/-- C10: `RedisCache.Set` serialises a `CacheItem` holding only content and
headers, so the embedded expiration is the zero time value; the backend write
receives the given key and the configured TTL unchanged (expiry on the remote
path rests solely on that native TTL); and decoding the stored value back —
what `RedisCache.Get` does on a successful read — yields `found = true`
together with the zero expiration instant (seconds and nanoseconds both 0). -/
theorem claim_C10_redis_zero_expiration (key : String) (content : List Nat)
    (header : List (List Nat × List (List Nat))) (ttl : Int)
    (hc : validBytes content) (hcl : content.length < 2 ^ 32)
    (hhl : header.length < 2 ^ 32) (hwf : ∀ kv ∈ header, validHeaderEntry kv)
    (hnd : (header.map Prod.fst).Nodup) :
    encodeCacheItem ⟨content, header, zeroGoTime⟩ =
      .ok (redisCacheSet key content header ttl).2.1 ∧
    (redisCacheSet key content header ttl).1 = key ∧
    (redisCacheSet key content header ttl).2.2 = ttl ∧
    ∃ d, redisCacheGet (.okReply (redisCacheSet key content header ttl).2.1) =
        (some d, true) ∧ d.content = content ∧ d.header = header ∧
      d.expiration.sec = 0 ∧ d.expiration.nsec = 0 := by
  have hv : validEntry ⟨content, header, zeroGoTime⟩ := by
    refine ⟨hc, hcl, hhl, hwf, hnd, ?_, ?_, ?_, ?_⟩ <;> norm_num [zeroGoTime]
  have hm : marshalTime zeroGoTime =
      .ok (1 :: beBytes 8 0 ++ beBytes 4 0 ++ beBytes 2 (-1)) := rfl
  have henc : encodeCacheItem ⟨content, header, zeroGoTime⟩ =
      .ok (encodeB64 (encodeInner ⟨content, header, zeroGoTime⟩
        (1 :: beBytes 8 0 ++ beBytes 4 0 ++ beBytes 2 (-1)))) := by
    unfold encodeCacheItem
    rw [hm]
  have hset : (redisCacheSet key content header ttl).2.1 =
      encodeB64 (encodeInner ⟨content, header, zeroGoTime⟩
        (1 :: beBytes 8 0 ++ beBytes 4 0 ++ beBytes 2 (-1))) := by
    unfold redisCacheSet
    dsimp only []
    rw [henc]
  obtain ⟨htsv, _, _⟩ := marshalTime_shape _ _ hm
  obtain ⟨u, hdec, hsec, hnsec⟩ :=
    decodeBody_encodeInner ⟨content, header, zeroGoTime⟩ _ hv hm
  have hfull : decodeCacheItem ((redisCacheSet key content header ttl).2.1) =
      .ok ⟨content, header, u⟩ := by
    rw [hset]
    unfold decodeCacheItem
    rw [decodeB64_encodeB64 _ (validBytes_encodeInner _ _ hv htsv)]
    exact hdec
  refine ⟨by rw [henc, hset], rfl, rfl, ⟨⟨content, header, u⟩, ?_, rfl, rfl, hsec, hnsec⟩⟩
  simp [redisCacheGet, hfull]

/-- Witness for C10 at a concrete key, one-byte body, empty header map. -/
theorem claim_C10_redis_zero_expiration_witness :
    ∃ d, redisCacheGet (.okReply (redisCacheSet "k" [104] [] 60).2.1) = (some d, true) ∧
      d.content = [104] ∧ d.header = ([] : List (List Nat × List (List Nat))) ∧
      d.expiration.sec = 0 ∧ d.expiration.nsec = 0 :=
  (claim_C10_redis_zero_expiration "k" [104] [] 60 (by decide) (by decide) (by decide)
    (by decide) (by decide)).2.2.2

/-! ### Claim C2: truncation behaviour of the decoder -/

theorem validBytes_take (l : List Nat) (k : Nat) (h : validBytes l) :
    validBytes (l.take k) :=
  fun b hb => h b (List.mem_of_mem_take hb)

theorem readBlob_nil : readBlob [] = .error () := rfl

theorem decodeTimeSection_nil : decodeTimeSection [] = .error () := rfl

theorem decodeValuesLoop_nil_step (n : Nat) : decodeValuesLoop (n + 1) [] = .error () := rfl

theorem decodeHeaderLoop_nil_step (n : Nat) (acc : List (List Nat × List (List Nat))) :
    decodeHeaderLoop (n + 1) acc [] = .error () := rfl

theorem readBytes_empty (n : Nat) : readBytes n [] = .error () := rfl


/-! Unfolding helpers for each decoder stage: one rewriting lemma per possible
outcome of the stage's first read, so later proofs can steer the match chains
by rewriting. -/

theorem readBlob_err_u32 (rem : List Nat) (h : readU32 rem = .error ()) :
    readBlob rem = .error () := by
  unfold readBlob
  rw [h]

theorem readBlob_ok_u32 (rem : List Nat) (n : Nat) (r : List Nat)
    (h : readU32 rem = .ok (n, r)) : readBlob rem = readBytes n r := by
  unfold readBlob
  rw [h]

theorem decodeValuesLoop_step_err (n : Nat) (rem : List Nat)
    (h : readBlob rem = .error ()) : decodeValuesLoop (n + 1) rem = .error () := by
  unfold decodeValuesLoop
  rw [h]

theorem decodeValuesLoop_step_tail_err (n : Nat) (rem v r : List Nat)
    (h1 : readBlob rem = .ok (v, r)) (h2 : decodeValuesLoop n r = .error ()) :
    decodeValuesLoop (n + 1) rem = .error () := by
  unfold decodeValuesLoop
  rw [h1]
  dsimp only []
  rw [h2]

theorem decodeValuesLoop_step_tail_ok (n : Nat) (rem v r : List Nat)
    (vs : List (List Nat)) (r3 : List Nat)
    (h1 : readBlob rem = .ok (v, r)) (h2 : decodeValuesLoop n r = .ok (vs, r3)) :
    decodeValuesLoop (n + 1) rem = .ok (v :: vs, r3) := by
  unfold decodeValuesLoop
  rw [h1]
  dsimp only []
  rw [h2]

theorem decodeHeaderLoop_step_err1 (n : Nat) (acc : List (List Nat × List (List Nat)))
    (rem : List Nat) (h : readBlob rem = .error ()) :
    decodeHeaderLoop (n + 1) acc rem = .error () := by
  unfold decodeHeaderLoop
  rw [h]

theorem decodeHeaderLoop_step_err2 (n : Nat) (acc : List (List Nat × List (List Nat)))
    (rem key r2 : List Nat) (h1 : readBlob rem = .ok (key, r2))
    (h2 : readU32 r2 = .error ()) : decodeHeaderLoop (n + 1) acc rem = .error () := by
  unfold decodeHeaderLoop
  rw [h1]
  dsimp only []
  rw [h2]

theorem decodeHeaderLoop_step_err3 (n : Nat) (acc : List (List Nat × List (List Nat)))
    (rem key r2 : List Nat) (m : Nat) (r3 : List Nat)
    (h1 : readBlob rem = .ok (key, r2)) (h2 : readU32 r2 = .ok (m, r3))
    (h3 : decodeValuesLoop m r3 = .error ()) :
    decodeHeaderLoop (n + 1) acc rem = .error () := by
  unfold decodeHeaderLoop
  rw [h1]
  dsimp only []
  rw [h2]
  dsimp only []
  rw [h3]

theorem decodeHeaderLoop_step_ok (n : Nat) (acc : List (List Nat × List (List Nat)))
    (rem key r2 : List Nat) (m : Nat) (r3 : List Nat) (values : List (List Nat))
    (r4 : List Nat)
    (h1 : readBlob rem = .ok (key, r2)) (h2 : readU32 r2 = .ok (m, r3))
    (h3 : decodeValuesLoop m r3 = .ok (values, r4)) :
    decodeHeaderLoop (n + 1) acc rem = decodeHeaderLoop n (mapInsert acc key values) r4 := by
  conv_lhs => unfold decodeHeaderLoop
  rw [h1]
  dsimp only []
  rw [h2]
  dsimp only []
  rw [h3]

theorem decodeTimeSection_err1 (rem : List Nat) (h : readBlob rem = .error ()) :
    decodeTimeSection rem = .error () := by
  unfold decodeTimeSection
  rw [h]

theorem decodeTimeSection_ok1 (rem eb r : List Nat) (h : readBlob rem = .ok (eb, r)) :
    decodeTimeSection rem = unmarshalTime eb := by
  unfold decodeTimeSection
  rw [h]

theorem decodeBody_err1 (d : List Nat) (h : readBlob d = .error ()) :
    decodeBody d = .error () := by
  unfold decodeBody
  rw [h]

theorem decodeBody_err2 (d c r2 : List Nat) (h1 : readBlob d = .ok (c, r2))
    (h2 : readU32 r2 = .error ()) : decodeBody d = .error () := by
  unfold decodeBody
  rw [h1]
  dsimp only []
  rw [h2]

theorem decodeBody_err3 (d c r2 : List Nat) (hl : Nat) (r3 : List Nat)
    (h1 : readBlob d = .ok (c, r2)) (h2 : readU32 r2 = .ok (hl, r3))
    (h3 : decodeHeaderLoop hl [] r3 = .error ()) : decodeBody d = .error () := by
  unfold decodeBody
  rw [h1]
  dsimp only []
  rw [h2]
  dsimp only []
  rw [h3]

theorem decodeBody_err4 (d c r2 : List Nat) (hl : Nat) (r3 : List Nat)
    (hmap : List (List Nat × List (List Nat))) (r4 : List Nat)
    (h1 : readBlob d = .ok (c, r2)) (h2 : readU32 r2 = .ok (hl, r3))
    (h3 : decodeHeaderLoop hl [] r3 = .ok (hmap, r4))
    (h4 : decodeTimeSection r4 = .error ()) : decodeBody d = .error () := by
  unfold decodeBody
  rw [h1]
  dsimp only []
  rw [h2]
  dsimp only []
  rw [h3]
  dsimp only []
  rw [h4]

/-- Truncating a length-prefixed blob anywhere up to its end yields either a
read error or a successful read that exhausts the remaining bytes (possibly
zero-padded). -/
theorem readBlob_take (xs rest : List Nat) (k : Nat) (hx : xs.length < 2 ^ 32)
    (hk : k ≤ 4 + xs.length) :
    readBlob ((le32 xs.length ++ (xs ++ rest)).take k) = .error () ∨
    ∃ b, readBlob ((le32 xs.length ++ (xs ++ rest)).take k) = .ok (b, []) := by
  by_cases h4 : k < 4
  · left
    have hlen : ((le32 xs.length ++ (xs ++ rest)).take k).length < 4 := by
      rw [List.length_take]
      omega
    exact readBlob_err_u32 _ (readU32_short _ hlen)
  · push_neg at h4
    have hsplit : (le32 xs.length ++ (xs ++ rest)).take k =
        le32 xs.length ++ xs.take (k - 4) := by
      rw [List.take_append_eq_append_take]
      rw [List.take_of_length_le (by simp [le32]; omega)]
      rw [List.take_append_eq_append_take]
      have h0 : k - (le32 xs.length).length - xs.length = 0 := by
        simp [le32]
        omega
      rw [h0]
      simp [le32]
    rw [hsplit, readBlob_ok_u32 _ xs.length (xs.take (k - 4)) (readU32_le32 _ _ hx)]
    by_cases hempty : xs.take (k - 4) = []
    · left
      rw [hempty, readBytes_empty]
    · right
      have hdrop : (xs.take (k - 4)).drop xs.length = [] := by
        apply List.drop_eq_nil_of_le
        rw [List.length_take]
        omega
      refine ⟨(xs.take (k - 4)).take xs.length ++
        List.replicate (xs.length - (xs.take (k - 4)).length) 0, ?_⟩
      unfold readBytes
      rw [if_neg (by simp [List.isEmpty_iff, hempty]), hdrop]

theorem take_append_of_ge {α : Type} (l1 l2 : List α) (k : Nat) (h : l1.length ≤ k) :
    (l1 ++ l2).take k = l1 ++ l2.take (k - l1.length) := by
  rw [List.take_append_eq_append_take, List.take_of_length_le h]

theorem le32_length (n : Nat) : (le32 n).length = 4 := rfl

theorem take_ne_nil_of_pos {α : Type} (l : List α) (k : Nat) (h1 : 1 ≤ k)
    (h2 : 1 ≤ l.length) : l.take k ≠ [] := by
  intro h
  have hlen := congrArg List.length h
  rw [List.length_take, List.length_nil, Nat.min_def] at hlen
  split_ifs at hlen <;> omega

theorem encodeValues_length_cons (v : List Nat) (tl : List (List Nat)) :
    (encodeValues (v :: tl)).length = 4 + v.length + (encodeValues tl).length := by
  simp [encodeValues, le32]
  omega

/-- Truncating the encoded value list of one header key anywhere up to its end
makes the values loop fail or succeed with nothing left over. -/
theorem decodeValuesLoop_take (vs : List (List Nat)) (k : Nat)
    (hwf : ∀ v ∈ vs, v.length < 2 ^ 32) (hk : k ≤ (encodeValues vs).length) :
    decodeValuesLoop vs.length ((encodeValues vs).take k) = .error () ∨
    ∃ r, decodeValuesLoop vs.length ((encodeValues vs).take k) = .ok (r, []) := by
  induction vs generalizing k with
  | nil =>
      right
      exact ⟨[], by simp [encodeValues, decodeValuesLoop]⟩
  | cons v tl ih =>
      have hshape : encodeValues (v :: tl) = le32 v.length ++ (v ++ encodeValues tl) := by
        simp [encodeValues]
      rw [List.length_cons, hshape]
      by_cases hk1 : k ≤ 4 + v.length
      · rcases readBlob_take v (encodeValues tl) k (hwf v (by simp)) hk1 with herr | ⟨b, hok⟩
        · left
          exact decodeValuesLoop_step_err _ _ herr
        · cases tl with
          | nil =>
              right
              exact ⟨[b], decodeValuesLoop_step_tail_ok _ _ _ _ _ _ hok rfl⟩
          | cons t ts =>
              left
              exact decodeValuesLoop_step_tail_err _ _ _ _ hok (decodeValuesLoop_nil_step _)
      · push_neg at hk1
        have hklen : k ≤ 4 + v.length + (encodeValues tl).length := by
          have := encodeValues_length_cons v tl
          omega
        have hsplit : (le32 v.length ++ (v ++ encodeValues tl)).take k =
            le32 v.length ++ (v ++ (encodeValues tl).take (k - 4 - v.length)) := by
          rw [take_append_of_ge _ _ k (by rw [le32_length]; omega), le32_length,
            take_append_of_ge _ _ (k - 4) (by omega)]
        have htailne : (encodeValues tl).take (k - 4 - v.length) ≠ [] :=
          take_ne_nil_of_pos _ _ (by omega) (by omega)
        have hread := readBlob_exact v ((encodeValues tl).take (k - 4 - v.length))
          (hwf v (by simp)) (by simp [htailne])
        rcases ih (k - 4 - v.length) (fun x hx => hwf x (by simp [hx])) (by omega)
          with herr | ⟨r, hok⟩
        · left
          rw [hsplit]
          exact decodeValuesLoop_step_tail_err _ _ _ _ hread herr
        · right
          rw [hsplit]
          exact ⟨v :: r, decodeValuesLoop_step_tail_ok _ _ _ _ _ _ hread hok⟩

theorem encodeHeaderList_length_cons (kv : List Nat × List (List Nat))
    (tl : List (List Nat × List (List Nat))) :
    (encodeHeaderList (kv :: tl)).length =
      8 + kv.1.length + (encodeValues kv.2).length + (encodeHeaderList tl).length := by
  have h : encodeHeaderList (kv :: tl) = le32 kv.1.length ++ (kv.1 ++
      (le32 kv.2.length ++ (encodeValues kv.2 ++ encodeHeaderList tl))) := by
    simp [encodeHeaderList]
  rw [h]
  simp only [List.length_append, le32_length]
  omega

/-- Truncating the encoded header section anywhere up to its end makes the
header loop fail or succeed with nothing left over. -/
theorem decodeHeaderLoop_take (hs : List (List Nat × List (List Nat))) (k : Nat)
    (acc : List (List Nat × List (List Nat)))
    (hwf : ∀ kv ∈ hs, validHeaderEntry kv) (hk : k ≤ (encodeHeaderList hs).length) :
    decodeHeaderLoop hs.length acc ((encodeHeaderList hs).take k) = .error () ∨
    ∃ h2, decodeHeaderLoop hs.length acc ((encodeHeaderList hs).take k) = .ok (h2, []) := by
  induction hs generalizing k acc with
  | nil =>
      right
      exact ⟨acc, by simp [encodeHeaderList, decodeHeaderLoop]⟩
  | cons kv tl ih =>
      obtain ⟨hkb, hkl, hvc, hvs⟩ := hwf kv (by simp)
      have hlentot := encodeHeaderList_length_cons kv tl
      have hshape : encodeHeaderList (kv :: tl) =
          le32 kv.1.length ++ (kv.1 ++ (le32 kv.2.length ++
            (encodeValues kv.2 ++ encodeHeaderList tl))) := by
        simp [encodeHeaderList]
      rw [List.length_cons, hshape]
      by_cases hc1 : k ≤ 4 + kv.1.length
      · rcases readBlob_take kv.1 (le32 kv.2.length ++
            (encodeValues kv.2 ++ encodeHeaderList tl)) k hkl hc1 with herr | ⟨b, hok⟩
        · left
          exact decodeHeaderLoop_step_err1 _ _ _ herr
        · left
          exact decodeHeaderLoop_step_err2 _ _ _ _ _ hok (readU32_short [] (by simp))
      · push_neg at hc1
        rw [take_append_of_ge _ _ k (by rw [le32_length]; omega), le32_length,
          take_append_of_ge _ _ (k - 4) (by omega)]
        have hinnerne : (le32 kv.2.length ++ (encodeValues kv.2 ++
            encodeHeaderList tl)).take (k - 4 - kv.1.length) ≠ [] :=
          take_ne_nil_of_pos _ _ (by omega)
            (by rw [List.length_append, le32_length]; omega)
        have hreadkey := readBlob_exact kv.1 ((le32 kv.2.length ++ (encodeValues kv.2 ++
          encodeHeaderList tl)).take (k - 4 - kv.1.length)) hkl (by simp [hinnerne])
        by_cases hc2 : k - 4 - kv.1.length < 4
        · left
          exact decodeHeaderLoop_step_err2 _ _ _ _ _ hreadkey
            (readU32_short _ (lt_of_le_of_lt (List.length_take_le _ _) hc2))
        · push_neg at hc2
          have hsplit2 : (le32 kv.2.length ++ (encodeValues kv.2 ++
              encodeHeaderList tl)).take (k - 4 - kv.1.length) =
              le32 kv.2.length ++ ((encodeValues kv.2 ++
                encodeHeaderList tl).take (k - 4 - kv.1.length - 4)) := by
            rw [take_append_of_ge _ _ _ (by rw [le32_length]; omega), le32_length]
          have hreadvl : readU32 ((le32 kv.2.length ++ (encodeValues kv.2 ++
              encodeHeaderList tl)).take (k - 4 - kv.1.length)) =
              .ok (kv.2.length, (encodeValues kv.2 ++
                encodeHeaderList tl).take (k - 4 - kv.1.length - 4)) := by
            rw [hsplit2]
            exact readU32_le32 _ _ hvc
          by_cases hc3 : k - 4 - kv.1.length - 4 ≤ (encodeValues kv.2).length
          · have hsplit3 : (encodeValues kv.2 ++
                encodeHeaderList tl).take (k - 4 - kv.1.length - 4) =
                (encodeValues kv.2).take (k - 4 - kv.1.length - 4) := by
              rw [List.take_append_eq_append_take]
              have h0 : k - 4 - kv.1.length - 4 - (encodeValues kv.2).length = 0 := by
                omega
              rw [h0]
              simp
            rcases decodeValuesLoop_take kv.2 (k - 4 - kv.1.length - 4)
                (fun v hv => (hvs v hv).2) hc3 with herr | ⟨r, hvok⟩
            · left
              exact decodeHeaderLoop_step_err3 _ _ _ _ _ _ _ hreadkey hreadvl
                (by rw [hsplit3]; exact herr)
            · rw [decodeHeaderLoop_step_ok _ _ _ _ _ _ _ _ _ hreadkey hreadvl
                (by rw [hsplit3]; exact hvok)]
              cases tl with
              | nil =>
                  right
                  exact ⟨mapInsert acc kv.1 r, rfl⟩
              | cons t ts =>
                  left
                  exact decodeHeaderLoop_nil_step _ _
          · push_neg at hc3
            have htailne : (encodeHeaderList tl).take
                (k - 4 - kv.1.length - 4 - (encodeValues kv.2).length) ≠ [] :=
              take_ne_nil_of_pos _ _ (by omega) (by omega)
            have hvfull := decodeValuesLoop_encode kv.2
              ((encodeHeaderList tl).take
                (k - 4 - kv.1.length - 4 - (encodeValues kv.2).length))
              (fun v hv => (hvs v hv).2) htailne
            rw [decodeHeaderLoop_step_ok _ _ _ _ _ _ _ _ _ hreadkey hreadvl
              (by rw [take_append_of_ge _ _ _ (by omega)]; exact hvfull)]
            exact ih (k - 4 - kv.1.length - 4 - (encodeValues kv.2).length)
              (mapInsert acc kv.1 kv.2) (fun x hx => hwf x (by simp [hx])) (by omega)

/-- Truncating the inner payload of a valid encoding anywhere that leaves at
most the expiration length prefix (i.e. strictly before the first marshalled
timestamp byte) makes the binary-section decoder fail. -/
theorem decodeBody_take (e : CacheItem) (tsb : List Nat) (k : Nat)
    (hv : validEntry e) (hm : marshalTime e.expiration = .ok tsb)
    (hk : k ≤ 4 + e.content.length + 4 + (encodeHeaderList e.header).length + 4) :
    decodeBody ((encodeInner e tsb).take k) = .error () := by
  obtain ⟨hcb, hcl, hhl, hhwf, hnd, hx1, hx2, hx3, hx4⟩ := hv
  obtain ⟨htsv, htslen, htsne⟩ := marshalTime_shape _ _ hm
  have htl : tsb.length < 2 ^ 32 := by rcases htslen with h | h <;> omega
  have hassoc : encodeInner e tsb = le32 e.content.length ++ (e.content ++
      (le32 e.header.length ++ (encodeHeaderList e.header ++
        (le32 tsb.length ++ tsb)))) := by
    simp [encodeInner]
  rw [hassoc]
  by_cases hc1 : k ≤ 4 + e.content.length
  · rcases readBlob_take e.content (le32 e.header.length ++ (encodeHeaderList e.header ++
        (le32 tsb.length ++ tsb))) k hcl hc1 with herr | ⟨b, hok⟩
    · exact decodeBody_err1 _ herr
    · exact decodeBody_err2 _ _ _ hok (readU32_short [] (by simp))
  · push_neg at hc1
    rw [take_append_of_ge _ _ k (by rw [le32_length]; omega), le32_length,
      take_append_of_ge _ _ (k - 4) (by omega)]
    have hinnerne : (le32 e.header.length ++ (encodeHeaderList e.header ++
        (le32 tsb.length ++ tsb))).take (k - 4 - e.content.length) ≠ [] :=
      take_ne_nil_of_pos _ _ (by omega)
        (by rw [List.length_append, le32_length]; omega)
    have hreadc := readBlob_exact e.content ((le32 e.header.length ++
      (encodeHeaderList e.header ++ (le32 tsb.length ++ tsb))).take
        (k - 4 - e.content.length)) hcl (by simp [hinnerne])
    by_cases hc2 : k - 4 - e.content.length < 4
    · exact decodeBody_err2 _ _ _ hreadc
        (readU32_short _ (lt_of_le_of_lt (List.length_take_le _ _) hc2))
    · push_neg at hc2
      have hsplit2 : (le32 e.header.length ++ (encodeHeaderList e.header ++
          (le32 tsb.length ++ tsb))).take (k - 4 - e.content.length) =
          le32 e.header.length ++ ((encodeHeaderList e.header ++
            (le32 tsb.length ++ tsb)).take (k - 4 - e.content.length - 4)) := by
        rw [take_append_of_ge _ _ _ (by rw [le32_length]; omega), le32_length]
      have hreadhl : readU32 ((le32 e.header.length ++ (encodeHeaderList e.header ++
          (le32 tsb.length ++ tsb))).take (k - 4 - e.content.length)) =
          .ok (e.header.length, (encodeHeaderList e.header ++
            (le32 tsb.length ++ tsb)).take (k - 4 - e.content.length - 4)) := by
        rw [hsplit2]
        exact readU32_le32 _ _ hhl
      by_cases hc3 : k - 4 - e.content.length - 4 ≤ (encodeHeaderList e.header).length
      · have hsplit3 : (encodeHeaderList e.header ++
            (le32 tsb.length ++ tsb)).take (k - 4 - e.content.length - 4) =
            (encodeHeaderList e.header).take (k - 4 - e.content.length - 4) := by
          rw [List.take_append_eq_append_take]
          have h0 : k - 4 - e.content.length - 4 - (encodeHeaderList e.header).length = 0 := by
            omega
          rw [h0]
          simp
        rcases decodeHeaderLoop_take e.header (k - 4 - e.content.length - 4) [] hhwf hc3
          with herr | ⟨h2, hok⟩
        · exact decodeBody_err3 _ _ _ _ _ hreadc hreadhl (by rw [hsplit3]; exact herr)
        · exact decodeBody_err4 _ _ _ _ _ _ _ hreadc hreadhl
            (by rw [hsplit3]; exact hok) decodeTimeSection_nil
      · push_neg at hc3
        have htne : (le32 tsb.length ++ tsb).take
            (k - 4 - e.content.length - 4 - (encodeHeaderList e.header).length) ≠ [] :=
          take_ne_nil_of_pos _ _ (by omega)
            (by rw [List.length_append, le32_length]; omega)
        have hhfull := decodeHeaderLoop_encode e.header []
          ((le32 tsb.length ++ tsb).take
            (k - 4 - e.content.length - 4 - (encodeHeaderList e.header).length)) hhwf htne
        have hts : decodeTimeSection ((le32 tsb.length ++ tsb).take
            (k - 4 - e.content.length - 4 - (encodeHeaderList e.header).length)) =
            .error () := by
          by_cases hc4 : k - 4 - e.content.length - 4 - (encodeHeaderList e.header).length < 4
          · exact decodeTimeSection_err1 _ (readBlob_err_u32 _
              (readU32_short _ (lt_of_le_of_lt (List.length_take_le _ _) hc4)))
          · have hm44 : k - 4 - e.content.length - 4 - (encodeHeaderList e.header).length = 4 := by
              omega
            rw [hm44, take_append_of_ge _ _ 4 (by rw [le32_length]), le32_length]
            have hru : readU32 (le32 tsb.length ++ tsb.take (4 - 4)) =
                .ok (tsb.length, []) := by
              have h := readU32_le32 tsb.length [] htl
              simpa using h
            have hrb : readBlob (le32 tsb.length ++ tsb.take (4 - 4)) = .error () := by
              rw [readBlob_ok_u32 _ tsb.length [] hru, readBytes_empty]
            exact decodeTimeSection_err1 _ hrb
        exact decodeBody_err4 _ _ _ _ _ _ _ hreadc hreadhl
          (by rw [take_append_of_ge _ _ _ (by omega)]; exact hhfull) hts

theorem decodeBody_badTime (content : List Nat) (hs : List (List Nat × List (List Nat)))
    (tsb : List Nat) (hcl : content.length < 2 ^ 32) (hhl : hs.length < 2 ^ 32)
    (hwf : ∀ kv ∈ hs, validHeaderEntry kv) (htl : tsb.length < 2 ^ 32)
    (hbad : unmarshalTime tsb = .error ()) :
    decodeBody (le32 content.length ++ (content ++ (le32 hs.length ++
      (encodeHeaderList hs ++ (le32 tsb.length ++ tsb))))) = .error () := by
  have h1 := readBlob_exact content (le32 hs.length ++ (encodeHeaderList hs ++
    (le32 tsb.length ++ tsb))) hcl (by simp [le32])
  have h2 := readU32_le32 hs.length (encodeHeaderList hs ++ (le32 tsb.length ++ tsb)) hhl
  have h3 := decodeHeaderLoop_encode hs [] (le32 tsb.length ++ tsb) hwf (by simp [le32])
  have h4 : decodeTimeSection (le32 tsb.length ++ tsb) = .error () := by
    cases tsb with
    | nil =>
        have hru : readU32 (le32 ([] : List Nat).length ++ ([] : List Nat)) =
            .ok (0, []) := by
          have h := readU32_le32 ([] : List Nat).length [] (by simp)
          simpa using h
        exact decodeTimeSection_err1 _
          (by rw [readBlob_ok_u32 _ 0 [] hru, readBytes_empty])
    | cons t ts =>
        rw [decodeTimeSection_ok1 _ (t :: ts) []
          (readBlob_exact_nil (t :: ts) htl (by simp))]
        exact hbad
  exact decodeBody_err4 _ _ _ _ _ _ _ h1 h2 h3 h4

/-! ### Claim C2 -/

/-- Counterexample for C2: the 13-byte payload `[0,0,0,0, 0,0,0,0, 15,0,0,0, 1]`
is a strict truncation (first 13 of 27 bytes) of the valid encoding of the
empty entry with zero expiration — its final length prefix claims 15 bytes
while only one remains — yet `decodeCacheItem` SUCCEEDS on it: the unchecked
`buf.Read` zero-pads the expiration buffer, which then passes the
`UnmarshalBinary` version and length checks. -/
theorem claim_C2_counterexample :
    (encodeInner ⟨[], [], zeroGoTime⟩
        (1 :: beBytes 8 0 ++ beBytes 4 0 ++ beBytes 2 (-1))).take 13 =
      [0, 0, 0, 0, 0, 0, 0, 0, 15, 0, 0, 0, 1] ∧
    13 < (encodeInner ⟨[], [], zeroGoTime⟩
        (1 :: beBytes 8 0 ++ beBytes 4 0 ++ beBytes 2 (-1))).length ∧
    marshalTime zeroGoTime = .ok (1 :: beBytes 8 0 ++ beBytes 4 0 ++ beBytes 2 (-1)) ∧
    decodeCacheItem (encodeB64 [0, 0, 0, 0, 0, 0, 0, 0, 15, 0, 0, 0, 1]) =
      .ok ⟨[], [], ⟨0, 0, 0, false⟩⟩ := by
  refine ⟨by decide, by decide, rfl, by rfl⟩

/-- C2 (amended): a truncated or oversized-claimed-length payload makes
`decodeCacheItem` fail whenever the cut falls strictly before the marshalled
timestamp bytes (at most the expiration length prefix survives), and a
well-formed payload whose timestamp bytes are malformed (rejected by
`UnmarshalBinary`) always fails; but a truncation that keeps the expiration
length prefix and at least one timestamp byte may succeed on the zero-padded
buffer (see the counterexample), so the original unqualified claim is false. -/
theorem claim_C2_truncation_errs :
    (∀ (e : CacheItem) (tsb : List Nat) (k : Nat), validEntry e →
      marshalTime e.expiration = .ok tsb →
      k ≤ 4 + e.content.length + 4 + (encodeHeaderList e.header).length + 4 →
      decodeCacheItem (encodeB64 ((encodeInner e tsb).take k)) = .error ()) ∧
    (∀ (content : List Nat) (hs : List (List Nat × List (List Nat))) (tsb : List Nat),
      validBytes content → content.length < 2 ^ 32 → hs.length < 2 ^ 32 →
      (∀ kv ∈ hs, validHeaderEntry kv) → validBytes tsb → tsb.length < 2 ^ 32 →
      unmarshalTime tsb = .error () →
      decodeCacheItem (encodeB64 (le32 content.length ++ (content ++ (le32 hs.length ++
        (encodeHeaderList hs ++ (le32 tsb.length ++ tsb)))))) = .error ()) := by
  constructor
  · intro e tsb k hv hm hk
    obtain ⟨htsv, _, _⟩ := marshalTime_shape _ _ hm
    unfold decodeCacheItem
    rw [decodeB64_encodeB64 _ (validBytes_take _ _ (validBytes_encodeInner e tsb hv htsv))]
    exact decodeBody_take e tsb k hv hm hk
  · intro content hs tsb hcb hcl hhl hwf htb htl hbad
    have hball : validBytes (le32 content.length ++ (content ++ (le32 hs.length ++
        (encodeHeaderList hs ++ (le32 tsb.length ++ tsb))))) := by
      rw [validBytes_append, validBytes_append, validBytes_append, validBytes_append,
        validBytes_append]
      exact ⟨validBytes_le32 _, hcb, validBytes_le32 _,
        validBytes_encodeHeaderList _ hwf, validBytes_le32 _, htb⟩
    unfold decodeCacheItem
    rw [decodeB64_encodeB64 _ hball]
    exact decodeBody_badTime content hs tsb hcl hhl hwf htl hbad

/-- Witness for C2 (amended): a cut after 3 bytes of the empty entry's
encoding fails to decode, and a payload with a malformed one-byte timestamp
fails to decode. -/
theorem claim_C2_truncation_errs_witness :
    decodeCacheItem (encodeB64 ((encodeInner ⟨[], [], zeroGoTime⟩
      (1 :: beBytes 8 0 ++ beBytes 4 0 ++ beBytes 2 (-1))).take 3)) = .error () ∧
    decodeCacheItem (encodeB64 (le32 ([] : List Nat).length ++ (([] : List Nat) ++
      (le32 ([] : List (List Nat × List (List Nat))).length ++
        (encodeHeaderList [] ++ (le32 [9].length ++ [9])))))) = .error () :=
  ⟨claim_C2_truncation_errs.1 ⟨[], [], zeroGoTime⟩ _ 3 (by decide) rfl (by decide),
   claim_C2_truncation_errs.2 [] [] [9] (by decide) (by decide) (by decide) (by decide)
     (by decide) (by decide) (by rfl)⟩
